import Mathlib

/-!
# ShakeSearch: the search core of `main.go`

A shallow embedding of `Searcher.Load` and `Searcher.Search` together with the
standard-library routines they call: `index/suffixarray` (`New`, `Lookup`), `sort.Search`,
`bytes.Compare`, `bytes.HasPrefix`, `utf8.DecodeRuneInString`, `unicode.IsSpace`,
`strings.Fields`, `strings.EqualFold` and `strings.HasSuffix`.

Go strings and byte slices are lists of bytes (`Bytes`); a Go slice that may be
`nil` is an `Option (List _)` with `none` for `nil`; Go `int` is `Int` (offsets
are bounded by the corpus length, far below `2^63`). A call that can fail returns
`Except Fault _`, where a `Fault` is either a returned `error` or a run-time panic.

Three things outside the repository are parameters: the case table
`unicode.SimpleFold` of `strings.EqualFold`, the file system read by `Load`, and the
CSV parser `csv.Reader.ReadAll`. `suffixarray.New` is described by its result, the
offsets sorted by suffix; `Lookup` then follows the library code.
-/

namespace ShakeSearch

set_option maxRecDepth 100000

/-- Go `string` / `[]byte`: a sequence of bytes, each a natural number below 256. -/
abbrev Bytes := List Nat

/-- The bytes of an ASCII string literal (for ASCII text these are its UTF-8 bytes). -/
def asciiBytes (s : String) : Bytes := s.data.map Char.toNat

/-- A Go slice value: `none` is the `nil` slice, `some l` a non-nil slice with elements `l`. -/
abbrev GoSlice (α : Type) := Option (List α)

/-- Go `append(s, x)`: the result is never `nil`. -/
def GoSlice.append {α : Type} (s : GoSlice α) (x : α) : GoSlice α :=
  match s with
  | none => some [x]
  | some l => some (l ++ [x])

/-- Go `map[string]string` built by a composite literal: keys with their values. -/
abbrev GoMap := List (String × Bytes)

/-- How a Go call can fail: an `error` value is returned, or the goroutine panics. -/
inductive Fault where
  | error (msg : String)
  | panic (msg : String)
  deriving DecidableEq, Repr

/-- Go `s[lo:hi]` on a string: panics unless `0 ≤ lo ≤ hi ≤ len(s)`. -/
def sliceString (s : Bytes) (lo hi : Int) : Except Fault Bytes :=
  if 0 ≤ lo ∧ lo ≤ hi ∧ hi ≤ (s.length : Int) then
    .ok ((s.drop lo.toNat).take (hi.toNat - lo.toNat))
  else .error (.panic "slice bounds out of range")

/-! ## `bytes.Compare`, `bytes.HasPrefix`, `sort.Search` -/

/-- Go `bytes.Compare`: lexicographic comparison of byte strings. -/
def bytesCompare : Bytes → Bytes → Ordering
  | [], [] => .eq
  | [], _ :: _ => .lt
  | _ :: _, [] => .gt
  | a :: as, b :: bs =>
    if a < b then .lt else if b < a then .gt else bytesCompare as bs

/-- Go `bytes.HasPrefix(s, p)`: `s` begins with `p`. -/
def hasPrefixBytes (s p : Bytes) : Bool := p.isPrefixOf s

/-- The loop of Go `sort.Search`: binary search on `[i, j)`; `fuel` bounds the iterations. -/
def sortSearchLoop (f : Nat → Bool) : Nat → Nat → Nat → Nat
  | 0, i, _ => i
  | fuel + 1, i, j =>
    if i < j then
      let h := (i + j) / 2
      if !f h then sortSearchLoop f fuel (h + 1) j else sortSearchLoop f fuel i h
    else i

/-- Go `sort.Search(n, f)`: binary search for the smallest index in `[0, n)` where `f` holds. -/
def sortSearch (n : Nat) (f : Nat → Bool) : Nat := sortSearchLoop f n 0 n

/-! ## `index/suffixarray` -/

/-- Go `suffixarray.Index`: the indexed data and its suffix array. -/
structure Index where
  data : Bytes
  sa : List Nat
  deriving DecidableEq, Repr

/-- The suffix of `data` starting at offset `a` is at most the one starting at `b`. -/
def suffixLE (data : Bytes) (a b : Nat) : Prop :=
  bytesCompare (data.drop a) (data.drop b) ≠ .gt

instance (data : Bytes) : DecidableRel (suffixLE data) := fun a b =>
  inferInstanceAs (Decidable (bytesCompare (data.drop a) (data.drop b) ≠ .gt))

/-- Go `suffixarray.New(data)`: the suffix array lists the offsets `0 .. len(data)-1`
sorted by the lexicographic order of the suffixes starting there. -/
def suffixarrayNew (data : Bytes) : Index :=
  { data := data, sa := (List.range data.length).insertionSort (suffixLE data) }

/-- Go `x.at(i)`: the suffix `x.data[x.sa[i]:]`. -/
def Index.at (x : Index) (i : Nat) : Bytes := x.data.drop (x.sa.getD i 0)

/-- Go `x.lookupAll(s)`: the range of the suffix array whose suffixes begin with `s`. -/
def Index.lookupAll (x : Index) (s : Bytes) : List Nat :=
  let i := sortSearch x.sa.length (fun i => decide (bytesCompare (x.at i) s ≠ .lt))
  let j := i + sortSearch (x.sa.length - i) (fun j => !hasPrefixBytes (x.at (j + i)) s)
  (x.sa.drop i).take (j - i)

/-- Go `x.Lookup(s, n)`: at most `n` offsets at which `s` occurs (all of them when `n < 0`),
in suffix-array order; `nil` if `s` is empty, is not found, or `n == 0`. -/
def Index.Lookup (x : Index) (s : Bytes) (n : Int) : GoSlice Nat :=
  if 0 < s.length ∧ n ≠ 0 then
    let found := x.lookupAll s
    let count := found.length
    let n := if n < 0 ∨ (count : Int) < n then count else n.toNat
    if 0 < n then some (found.take n) else none
  else none

/-! ## `unicode/utf8`, `unicode`, `strings.Fields`, `strings.EqualFold` -/

/-- Go `utf8.RuneError`, the replacement character U+FFFD. -/
def RuneError : Nat := 0xFFFD

/-- Go `unicode.MaxRune`. -/
def MaxRune : Nat := 0x10FFFF

/-- The `first` and `acceptRanges` tables of Go `unicode/utf8`: for a lead byte, the
length of the encoding and the accepted range of the second byte; `none` for a byte
that cannot start a multi-byte encoding. -/
def utf8First (s0 : Nat) : Option (Nat × Nat × Nat) :=
  if 0xC2 ≤ s0 ∧ s0 ≤ 0xDF then some (2, 0x80, 0xBF)
  else if s0 = 0xE0 then some (3, 0xA0, 0xBF)
  else if 0xE1 ≤ s0 ∧ s0 ≤ 0xEC then some (3, 0x80, 0xBF)
  else if s0 = 0xED then some (3, 0x80, 0x9F)
  else if 0xEE ≤ s0 ∧ s0 ≤ 0xEF then some (3, 0x80, 0xBF)
  else if s0 = 0xF0 then some (4, 0x90, 0xBF)
  else if 0xF1 ≤ s0 ∧ s0 ≤ 0xF3 then some (4, 0x80, 0xBF)
  else if s0 = 0xF4 then some (4, 0x80, 0x8F)
  else none

/-- The multi-byte path of Go `utf8.DecodeRuneInString` for a lead byte `s0` with table
entry `(sz, lo, hi)`: `n` is `len(s)` and `s1`, `s2`, `s3` are the bytes `s[1]`, `s[2]`,
`s[3]`, each read only after the length check `n < sz` has passed. -/
def decodeMulti (s0 sz lo hi n s1 s2 s3 : Nat) : Nat × Nat :=
  if n < sz then (RuneError, 1)
  else if s1 < lo ∨ hi < s1 then (RuneError, 1)
  else if sz ≤ 2 then (((s0 &&& 0x1F) <<< 6) ||| (s1 &&& 0x3F), 2)
  else if s2 < 0x80 ∨ 0xBF < s2 then (RuneError, 1)
  else if sz ≤ 3 then
    (((s0 &&& 0x0F) <<< 12) ||| ((s1 &&& 0x3F) <<< 6) ||| (s2 &&& 0x3F), 3)
  else if s3 < 0x80 ∨ 0xBF < s3 then (RuneError, 1)
  else
    (((s0 &&& 0x07) <<< 18) ||| ((s1 &&& 0x3F) <<< 12) ||| ((s2 &&& 0x3F) <<< 6)
      ||| (s3 &&& 0x3F), 4)

/-- Go `utf8.DecodeRuneInString`: the first rune of `s` and its width in bytes;
`(RuneError, 1)` for an invalid or truncated encoding, `(RuneError, 0)` for the
empty string. -/
def decodeRune (s : Bytes) : Nat × Nat :=
  match s with
  | [] => (RuneError, 0)
  | s0 :: _ =>
    if s0 < 0x80 then (s0, 1)
    else
      match utf8First s0 with
      | none => (RuneError, 1)
      | some (sz, lo, hi) =>
        decodeMulti s0 sz lo hi s.length (s.getD 1 0) (s.getD 2 0) (s.getD 3 0)

/-- Go `for _, r := range s` on a string: the runes of `s` in order, each with the
bytes it was decoded from; `fuel` bounds the number of runes. -/
def rangeStringAux : Nat → Bytes → List (Nat × Bytes)
  | 0, _ => []
  | _ + 1, [] => []
  | fuel + 1, b :: bs =>
    let d := decodeRune (b :: bs)
    (d.1, (b :: bs).take d.2) :: rangeStringAux fuel ((b :: bs).drop d.2)

/-- The runes of a string with the bytes of each (every rune takes at least one byte). -/
def rangeString (s : Bytes) : List (Nat × Bytes) := rangeStringAux s.length s

/-- The runes of a string. -/
def stringRunes (s : Bytes) : List Nat := (rangeString s).map Prod.fst

/-- Go `unicode.IsSpace`: the code points with the Unicode White_Space property. -/
def isSpace (r : Nat) : Bool :=
  (0x09 ≤ r && r ≤ 0x0D) || r == 0x20 || r == 0x85 || r == 0xA0 || r == 0x1680
    || (0x2000 ≤ r && r ≤ 0x200A) || r == 0x2028 || r == 0x2029 || r == 0x202F
    || r == 0x205F || r == 0x3000

/-- The loop of Go `strings.FieldsFunc(s, unicode.IsSpace)` over the runes of `s`:
`cur` is the part of the current field read so far (empty when no field is open). -/
def fieldsLoop : List (Nat × Bytes) → Bytes → List Bytes
  | [], cur => if cur = [] then [] else [cur]
  | (r, bs) :: rest, cur =>
    if isSpace r then
      if cur = [] then fieldsLoop rest [] else cur :: fieldsLoop rest []
    else fieldsLoop rest (cur ++ bs)

/-- Go `strings.Fields`: the maximal runs of non-white-space runes of `s`, in order. -/
def Fields (s : Bytes) : List Bytes := fieldsLoop (rangeString s) []

/-- The inner loop of Go `strings.EqualFold`: follow the case orbit of `sr` with
`unicode.SimpleFold` while the rune reached is below `tr`. -/
def foldOrbit (simpleFold : Nat → Nat) (sr tr : Nat) : Nat → Nat → Nat
  | 0, r => r
  | fuel + 1, r =>
    if r ≠ sr ∧ r < tr then foldOrbit simpleFold sr tr fuel (simpleFold r) else r

/-- One step of Go `strings.EqualFold`: the runes `sr` and `tr` are equal under simple
case folding. `simpleFold` is the table `unicode.SimpleFold`. -/
def runeEqualFold (simpleFold : Nat → Nat) (sr tr : Nat) : Bool :=
  if tr = sr then true
  else
    let lo := if tr < sr then tr else sr
    let hi := if tr < sr then sr else tr
    if hi < 0x80 then decide (0x41 ≤ lo ∧ lo ≤ 0x5A ∧ hi = lo + 0x61 - 0x41)
    else decide (foldOrbit simpleFold lo hi (MaxRune + 1) (simpleFold lo) = hi)

/-- The rune-by-rune comparison of Go `strings.EqualFold`. -/
def equalFoldRunes (simpleFold : Nat → Nat) : List Nat → List Nat → Bool
  | [], [] => true
  | [], _ :: _ => false
  | _ :: _, [] => false
  | sr :: s, tr :: t => runeEqualFold simpleFold sr tr && equalFoldRunes simpleFold s t

/-- Go `strings.EqualFold(s, t)`: `s` and `t`, read as UTF-8, are equal under simple
Unicode case folding. -/
def EqualFold (simpleFold : Nat → Nat) (s t : Bytes) : Bool :=
  equalFoldRunes simpleFold (stringRunes s) (stringRunes t)

/-- Go `strings.HasSuffix`. -/
def hasSuffixBytes (s suffix : Bytes) : Bool := suffix.isSuffixOf s

/-! ## `main.go` -/

/-- Source `Play`: a play and its quote. -/
structure Play where
  Title : Bytes
  Player : Bytes
  ActSceneLine : Bytes
  Quote : Bytes
  deriving DecidableEq, Repr

/-- Source `Searcher`; `SuffixArray` is a pointer, `none` when `nil`. -/
structure Searcher where
  CompleteWorks : Bytes
  SuffixArray : Option Index
  Plays : GoSlice Play
  deriving DecidableEq, Repr

/-- The zero value `Searcher{}`. -/
def Searcher.zero : Searcher := { CompleteWorks := [], SuffixArray := none, Plays := none }

/-- Go `record[k]`: panics when `k` is out of range. -/
def indexRecord (record : List Bytes) (k : Nat) : Except Fault Bytes :=
  match record.get? k with
  | some f => .ok f
  | none => .error (.panic "index out of range")

/-- The composite literal `Play{Title: record[1], ActSceneLine: record[2],
Player: record[3], Quote: record[4]}` of `Load`, fields evaluated in source order. -/
def playOfRecord (record : List Bytes) : Except Fault Play :=
  match indexRecord record 1 with
  | .error e => .error e
  | .ok title =>
    match indexRecord record 2 with
    | .error e => .error e
    | .ok actSceneLine =>
      match indexRecord record 3 with
      | .error e => .error e
      | .ok player =>
        match indexRecord record 4 with
        | .error e => .error e
        | .ok quote =>
          .ok { Title := title, ActSceneLine := actSceneLine, Player := player, Quote := quote }

/-- The loop `for _, record := range records` of `Load`, appending to `s.Plays`. -/
def loadRecords : List (List Bytes) → GoSlice Play → Except Fault (GoSlice Play)
  | [], plays => .ok plays
  | record :: rest, plays =>
    match playOfRecord record with
    | .error e => .error e
    | .ok play => loadRecords rest (plays.append play)

/-- Source `(*Searcher).Load`. `openFile` stands for the file system (`os.Open` and
`ioutil.ReadFile`: the contents of a readable file, `none` otherwise) and `csvReadAll`
for `csv.Reader.ReadAll` with `FieldsPerRecord = -1`. -/
def Searcher.Load (openFile : Bytes → Option Bytes)
    (csvReadAll : Bytes → Except String (List (List Bytes)))
    (s : Searcher) (filename : Bytes) : Except Fault Searcher :=
  match openFile filename with
  | none => .error (.error "Load: open failed")
  | some dat =>
    if hasSuffixBytes filename (asciiBytes ".csv") then
      match csvReadAll dat with
      | .error _ => .error (.error "Load: csv")
      | .ok records =>
        match loadRecords records s.Plays with
        | .error e => .error e
        | .ok plays => .ok { s with Plays := plays }
    else if hasSuffixBytes filename (asciiBytes ".txt") then
      .ok { s with CompleteWorks := dat, SuffixArray := some (suffixarrayNew dat) }
    else .error (.error "Load: unsupported file extension")

/-- The window start of `Search`: `startIndex := index[0] - 125`, clamped at `0`. -/
def startIndex (i0 : Int) : Int :=
  let startIndex := i0 - 125
  if startIndex < 0 then 0 else startIndex

/-- The window end of `Search`: `endIndex := index[0] + 125`, clamped at `len`. -/
def endIndex (len i0 : Int) : Int :=
  let endIndex := i0 + 125
  if endIndex > len then len else endIndex

/-- The first block of `Search`: the suffix-array lookup and the context window. -/
def Searcher.searchContext (s : Searcher) (query : Bytes) (results : GoSlice GoMap) :
    Except Fault (GoSlice GoMap) :=
  match s.SuffixArray with
  | none => .ok results
  | some sa =>
    match sa.Lookup query (-1) with
    | none => .ok results
    | some [] => .error (.panic "index out of range [0] with length 0")
    | some (i0 :: _) =>
      match sliceString s.CompleteWorks (startIndex i0) (endIndex s.CompleteWorks.length i0) with
      | .error e => .error e
      | .ok context => .ok (results.append [("Context", context)])

/-- The map literal appended for a matching word of `play`. -/
def playResult (play : Play) : GoMap :=
  [("Title", play.Title), ("Player", play.Player), ("Quote", play.Quote),
    ("ActSceneLine", play.ActSceneLine)]

/-- The second block of `Search`: every word of every quote is compared with the query. -/
def Searcher.searchPlays (simpleFold : Nat → Nat) (s : Searcher) (query : Bytes)
    (results : GoSlice GoMap) : GoSlice GoMap :=
  match s.Plays with
  | none => results
  | some plays =>
    plays.foldl (fun results play =>
      (Fields play.Quote).foldl (fun results word =>
        if EqualFold simpleFold word query then results.append (playResult play)
        else results) results) results

/-- Source `(*Searcher).Search`; `simpleFold` is the table `unicode.SimpleFold`. -/
def Searcher.Search (simpleFold : Nat → Nat) (s : Searcher) (query : Bytes) :
    Except Fault (GoSlice GoMap) :=
  match s.searchContext query (some []) with
  | .error e => .error e
  | .ok results => .ok (s.searchPlays simpleFold query results)

/-! ## Vocabulary of the specification -/

/-- The bytes of `corpus` from offset `lo` inclusive to offset `hi` exclusive. -/
def corpusSlice (corpus : Bytes) (lo hi : Nat) : Bytes := (corpus.drop lo).take (hi - lo)

/-- A Searcher as `Load` leaves it after a `.txt` file with contents `corpus`, with
whatever `Plays` it had. -/
def Searcher.withText (corpus : Bytes) (plays : GoSlice Play) : Searcher :=
  { CompleteWorks := corpus, SuffixArray := some (suffixarrayNew corpus), Plays := plays }

/-- A quotes-only Searcher: no corpus text, no suffix array. -/
def Searcher.withPlays (plays : GoSlice Play) : Searcher :=
  { CompleteWorks := [], SuffixArray := none, Plays := plays }

/-- A Searcher is consistent when its suffix array, if any, indexes its `CompleteWorks`;
`Load` only ever sets the two together. -/
def Searcher.Consistent (s : Searcher) : Prop :=
  s.SuffixArray = none ∨ s.SuffixArray = some (suffixarrayNew s.CompleteWorks)

/-- A fragment of the table `unicode.SimpleFold`: the case orbits of the ASCII letters
(`K`, `k`, U+212A and `S`, `s`, U+017F are the two orbits of three); the identity on
every other code point. -/
def simpleFoldAscii (r : Nat) : Nat :=
  if r = 0x4B then 0x6B else if r = 0x6B then 0x212A else if r = 0x212A then 0x4B
  else if r = 0x53 then 0x73 else if r = 0x73 then 0x17F else if r = 0x17F then 0x53
  else if 0x41 ≤ r ∧ r ≤ 0x5A then r + 0x20
  else if 0x61 ≤ r ∧ r ≤ 0x7A then r - 0x20
  else r

/-- A corpus of 134 bytes: `ab`, then 130 distinct bytes, then `aa`. -/
def corpusAbAa : Bytes := asciiBytes "ab" ++ (List.range 130).map (· + 100) ++ asciiBytes "aa"

/-- A corpus of 126 distinct bytes. -/
def corpus126 : Bytes := List.range 126

/-- A corpus of 200 distinct bytes. -/
def corpus200 : Bytes := List.range 200

/-- The elements of a Go slice (`nil` has none). -/
def GoSlice.elems {α : Type} (s : GoSlice α) : List α :=
  match s with
  | none => []
  | some l => l

/-- The number of whitespace-delimited words of `quote` that are equal to `query` under
case-insensitive comparison. -/
def matchCount (simpleFold : Nat → Nat) (quote query : Bytes) : Nat :=
  (Fields quote).countP (fun word => EqualFold simpleFold word query)

/-- The quote record a row of the tabular data stands for: fields 1 to 4 are the title,
the location, the speaker and the quote. -/
def playOfFields (record : List Bytes) : Play :=
  { Title := record.getD 1 [], ActSceneLine := record.getD 2 [], Player := record.getD 3 [],
    Quote := record.getD 4 [] }

/-- The query contains a white-space character. -/
def containsSpace (query : Bytes) : Prop := ∃ r ∈ stringRunes query, isSpace r = true

/-- The record `{T1, P1, L1, "Hello world"}`. -/
def playHelloWorld : Play :=
  { Title := asciiBytes "T1", Player := asciiBytes "P1", ActSceneLine := asciiBytes "L1",
    Quote := asciiBytes "Hello world" }

/-- The record `{T2, P2, L2, "world peace"}`. -/
def playWorldPeace : Play :=
  { Title := asciiBytes "T2", Player := asciiBytes "P2", ActSceneLine := asciiBytes "L2",
    Quote := asciiBytes "world peace" }

/-- A file name ending in `.csv`. -/
def csvName : Bytes := asciiBytes "completeworkssorted.csv"

/-- A row of five fields. -/
def rowHelloWorld : List Bytes :=
  [asciiBytes "1", asciiBytes "T1", asciiBytes "L1", asciiBytes "P1", asciiBytes "Hello world"]

/-- A row of three fields. -/
def rowShort : List Bytes := [asciiBytes "2", asciiBytes "T2", asciiBytes "L2"]

/-- The record `{Hamlet, HAMLET, 3.1.64, "To be, or not to be: that is the question:"}`. -/
def playToBe : Play :=
  { Title := asciiBytes "Hamlet", Player := asciiBytes "HAMLET",
    ActSceneLine := asciiBytes "3.1.64",
    Quote := asciiBytes "To be, or not to be: that is the question:" }

/-! # Theorems -/

/-! ## The order of `bytes.Compare` -/

theorem bytesCompare_self (a : Bytes) : bytesCompare a a = .eq := by
  induction a with
  | nil => rfl
  | cons x xs ih => simp [bytesCompare, ih]

theorem bytesCompare_gt_iff_lt : ∀ a b : Bytes, bytesCompare a b = .gt ↔ bytesCompare b a = .lt
  | [], [] => by simp [bytesCompare]
  | [], _ :: _ => by simp [bytesCompare]
  | _ :: _, [] => by simp [bytesCompare]
  | x :: xs, y :: ys => by
    have ih := bytesCompare_gt_iff_lt xs ys
    simp only [bytesCompare]
    split_ifs <;> first | omega | exact ih | simp

theorem bytesCompare_le_trans : ∀ a b c : Bytes,
    bytesCompare a b ≠ .gt → bytesCompare b c ≠ .gt → bytesCompare a c ≠ .gt
  | [], _, [] => by simp [bytesCompare]
  | [], _, _ :: _ => by simp [bytesCompare]
  | _ :: _, [], _ => by simp [bytesCompare]
  | _ :: _, _ :: _, [] => by simp [bytesCompare]
  | x :: xs, y :: ys, z :: zs => by
    have ih := bytesCompare_le_trans xs ys zs
    simp only [bytesCompare]
    split_ifs <;> first | omega | exact ih | simp

theorem bytesCompare_le_total (a b : Bytes) :
    bytesCompare a b ≠ .gt ∨ bytesCompare b a ≠ .gt := by
  by_cases h : bytesCompare a b = .gt
  · right
    rw [(bytesCompare_gt_iff_lt a b).1 h]
    simp
  · exact Or.inl h

theorem hasPrefixBytes_iff (s p : Bytes) : hasPrefixBytes s p = true ↔ p <+: s := by
  simp [hasPrefixBytes]

/-- A string is at least any of its prefixes. -/
theorem bytesCompare_of_prefix : ∀ s p : Bytes, p <+: s → bytesCompare s p ≠ .lt
  | [], [], _ => by simp [bytesCompare]
  | _ :: _, [], _ => by simp [bytesCompare]
  | [], _ :: _, h => by simp at h
  | x :: xs, y :: ys, h => by
    rw [List.cons_prefix_cons] at h
    obtain ⟨rfl, h⟩ := h
    simp only [bytesCompare, lt_self_iff_false, if_false]
    exact bytesCompare_of_prefix xs ys h

/-- Between a string `p` and a string that begins with `p` every string begins with `p`. -/
theorem prefix_of_between : ∀ p x y : Bytes,
    bytesCompare x p ≠ .lt → bytesCompare x y ≠ .gt → p <+: y → p <+: x
  | [], _, _, _, _, _ => List.nil_prefix
  | _ :: _, [], _, h, _, _ => by simp [bytesCompare] at h
  | _ :: _, _ :: _, [], _, h, _ => by simp [bytesCompare] at h
  | a :: p, b :: x, c :: y, h1, h2, h3 => by
    rw [List.cons_prefix_cons] at h3
    obtain ⟨rfl, h3⟩ := h3
    have ih := prefix_of_between p x y
    rw [List.cons_prefix_cons]
    rcases lt_trichotomy b a with hlt | heq | hgt
    · simp [bytesCompare, hlt] at h1
    · subst heq
      simp only [bytesCompare, lt_self_iff_false, if_false] at h1 h2
      exact ⟨rfl, ih h1 h2 h3⟩
    · have hn : ¬ b < a := by omega
      simp [bytesCompare, hn, hgt] at h2

/-! ## `sort.Search` finds the least index of a monotone predicate -/

theorem sortSearchLoop_spec (f : Nat → Bool) (n : Nat)
    (hmono : ∀ a b, a ≤ b → b < n → f a = true → f b = true) :
    ∀ fuel i j, i ≤ j → j ≤ n → j - i ≤ fuel → (∀ k, k < i → f k = false) →
      (j < n → f j = true) →
      i ≤ sortSearchLoop f fuel i j ∧ sortSearchLoop f fuel i j ≤ j ∧
        (∀ k, k < sortSearchLoop f fuel i j → f k = false) ∧
        (sortSearchLoop f fuel i j < n → f (sortSearchLoop f fuel i j) = true) := by
  intro fuel
  induction fuel with
  | zero =>
    intro i j hij hjn hfuel hlo hhi
    have : i = j := by omega
    subst this
    simp only [sortSearchLoop]
    exact ⟨le_refl _, le_refl _, hlo, hhi⟩
  | succ fuel ih =>
    intro i j hij hjn hfuel hlo hhi
    simp only [sortSearchLoop]
    by_cases hlt : i < j
    · simp only [hlt, if_true]
      have hh1 : i ≤ (i + j) / 2 := by omega
      have hh2 : (i + j) / 2 < j := by omega
      by_cases hf : f ((i + j) / 2) = true
      · simp only [hf, Bool.not_true, Bool.false_eq_true, if_false]
        have := ih i ((i + j) / 2) hh1 (by omega) (by omega) hlo (fun _ => hf)
        exact ⟨this.1, by omega, this.2.2.1, this.2.2.2⟩
      · simp only [Bool.not_eq_true] at hf
        simp only [hf, Bool.not_false, if_true]
        have hlo' : ∀ k, k < (i + j) / 2 + 1 → f k = false := by
          intro k hk
          by_contra hc
          simp only [Bool.not_eq_false] at hc
          have := hmono k ((i + j) / 2) (by omega) (by omega) hc
          simp [hf] at this
        have := ih ((i + j) / 2 + 1) j (by omega) hjn (by omega) hlo' hhi
        exact ⟨by omega, this.2.1, this.2.2.1, this.2.2.2⟩
    · simp only [hlt, if_false]
      have : i = j := by omega
      subst this
      exact ⟨le_refl _, le_refl _, hlo, hhi⟩

theorem sortSearch_spec (f : Nat → Bool) (n : Nat)
    (hmono : ∀ a b, a ≤ b → b < n → f a = true → f b = true) :
    sortSearch n f ≤ n ∧ (∀ k, k < sortSearch n f → f k = false) ∧
      (sortSearch n f < n → f (sortSearch n f) = true) := by
  have := sortSearchLoop_spec f n hmono n 0 n (Nat.zero_le _) (le_refl _) (by omega)
    (fun k hk => absurd hk (Nat.not_lt_zero _)) (fun h => absurd h (lt_irrefl _))
  exact ⟨this.2.1, this.2.2.1, this.2.2.2⟩

/-! ## The suffix array and `lookupAll` -/

theorem suffixarrayNew_sorted (data : Bytes) :
    (suffixarrayNew data).sa.Sorted (suffixLE data) := by
  haveI : IsTotal Nat (suffixLE data) := ⟨fun _ _ => bytesCompare_le_total _ _⟩
  haveI : IsTrans Nat (suffixLE data) := ⟨fun _ _ _ => bytesCompare_le_trans _ _ _⟩
  exact List.sorted_insertionSort (suffixLE data) (List.range data.length)

theorem mem_suffixarrayNew (data : Bytes) (k : Nat) :
    k ∈ (suffixarrayNew data).sa ↔ k < data.length := by
  simp [suffixarrayNew, List.mem_insertionSort]

theorem suffixarrayNew_data (data : Bytes) : (suffixarrayNew data).data = data := rfl

theorem Index.at_eq (x : Index) (i : Nat) (h : i < x.sa.length) :
    x.at i = x.data.drop x.sa[i] := by
  simp [Index.at, List.getElem?_eq_getElem h]

/-- In a sorted suffix array the suffixes `at(a)`, `at(b)` are ordered like `a ≤ b`. -/
theorem Index.at_mono (x : Index) (hs : x.sa.Sorted (suffixLE x.data)) (a b : Nat)
    (hab : a ≤ b) (hb : b < x.sa.length) : bytesCompare (x.at a) (x.at b) ≠ .gt := by
  rcases Nat.eq_or_lt_of_le hab with rfl | hlt
  · rw [bytesCompare_self]; simp
  · rw [x.at_eq a (by omega), x.at_eq b hb]
    exact (List.pairwise_iff_getElem.1 hs) a b (by omega) hb hlt

theorem bytesCompare_ge_trans (s x y : Bytes) (h1 : bytesCompare x s ≠ .lt)
    (h2 : bytesCompare x y ≠ .gt) : bytesCompare y s ≠ .lt := by
  have h1' : bytesCompare s x ≠ .gt := fun h => h1 ((bytesCompare_gt_iff_lt s x).1 h)
  have := bytesCompare_le_trans s x y h1' h2
  exact fun h => this ((bytesCompare_gt_iff_lt s y).2 h)

/-- The result of `lookupAll` on a sorted suffix array: exactly the offsets whose suffix
begins with `s`, in suffix-array order. -/
theorem Index.lookupAll_eq_filter (x : Index) (hs : x.sa.Sorted (suffixLE x.data))
    (s : Bytes) :
    x.lookupAll s = x.sa.filter (fun k => hasPrefixBytes (x.data.drop k) s) := by
  have hmono1 : ∀ a b, a ≤ b → b < x.sa.length →
      decide (bytesCompare (x.at a) s ≠ .lt) = true →
      decide (bytesCompare (x.at b) s ≠ .lt) = true := by
    intro a b hab hb ha
    simp only [decide_eq_true_eq] at ha ⊢
    exact bytesCompare_ge_trans s _ _ ha (x.at_mono hs a b hab hb)
  obtain ⟨hi1, hi2, hi3⟩ := sortSearch_spec _ _ hmono1
  generalize hi : sortSearch x.sa.length
    (fun i => decide (bytesCompare (x.at i) s ≠ .lt)) = i at hi1 hi2 hi3
  have hge : ∀ k, i ≤ k → k < x.sa.length → bytesCompare (x.at k) s ≠ .lt := by
    intro k hik hk
    have h := hmono1 i k hik hk (hi3 (by omega))
    simpa using h
  have hmono2 : ∀ a b, a ≤ b → b < x.sa.length - i →
      (!hasPrefixBytes (x.at (a + i)) s) = true → (!hasPrefixBytes (x.at (b + i)) s) = true := by
    intro a b hab hb ha
    simp only [Bool.not_eq_true', ← Bool.not_eq_true, hasPrefixBytes_iff] at ha ⊢
    intro hp
    exact ha (prefix_of_between s _ _ (hge (a + i) (by omega) (by omega))
      (x.at_mono hs (a + i) (b + i) (by omega) (by omega)) hp)
  obtain ⟨hm1, hm2, hm3⟩ := sortSearch_spec _ _ hmono2
  have hlook : x.lookupAll s = (x.sa.drop i).take (sortSearch (x.sa.length - i)
      (fun j => !hasPrefixBytes (x.at (j + i)) s)) := by
    simp only [Index.lookupAll, hi, Nat.add_sub_cancel_left]
  rw [hlook]
  generalize sortSearch (x.sa.length - i)
    (fun j => !hasPrefixBytes (x.at (j + i)) s) = m at hm1 hm2 hm3
  have hsplit : x.sa = x.sa.take i ++ ((x.sa.drop i).take m ++ (x.sa.drop i).drop m) := by
    rw [List.take_append_drop, List.take_append_drop]
  have h1 : (x.sa.take i).filter (fun k => hasPrefixBytes (x.data.drop k) s) = [] := by
    rw [List.filter_eq_nil_iff]
    intro k hk
    obtain ⟨p, hp, rfl⟩ := List.mem_take_iff_getElem.1 hk
    have hpi : p < i := by omega
    have hpl : p < x.sa.length := by omega
    have hf := hi2 p hpi
    simp only [decide_eq_false_iff_not, ne_eq, not_not] at hf
    rw [x.at_eq p hpl] at hf
    rw [hasPrefixBytes_iff]
    intro hpre
    exact bytesCompare_of_prefix _ _ hpre hf
  have h2 : ((x.sa.drop i).take m).filter (fun k => hasPrefixBytes (x.data.drop k) s)
      = (x.sa.drop i).take m := by
    rw [List.filter_eq_self]
    intro k hk
    obtain ⟨p, hp, rfl⟩ := List.mem_take_iff_getElem.1 hk
    have hpm : p < m := by omega
    have hpl : p + i < x.sa.length := by omega
    have hf := hm2 p hpm
    simp only [Bool.not_eq_false'] at hf
    rw [x.at_eq (p + i) hpl] at hf
    simpa [Nat.add_comm] using hf
  have h3 : ((x.sa.drop i).drop m).filter (fun k => hasPrefixBytes (x.data.drop k) s)
      = [] := by
    rw [List.filter_eq_nil_iff]
    intro k hk
    rw [List.drop_drop] at hk
    obtain ⟨p, hp, rfl⟩ := List.mem_drop_iff_getElem.1 hk
    have hmlt : m < x.sa.length - i := by omega
    have hf := hmono2 m (m + p) (by omega) (by omega) (hm3 hmlt)
    simp only [Bool.not_eq_true'] at hf
    rw [x.at_eq (m + p + i) (by omega)] at hf
    have he : m + p + i = i + m + p := by omega
    simp only [he] at hf
    simp [hf]
  conv_rhs => rw [hsplit]
  rw [List.filter_append, List.filter_append, h1, h2, h3]
  simp

/-! ## `Lookup` on the index built by `suffixarray.New` -/

theorem infix_iff_exists_drop (q c : Bytes) : q <:+: c ↔ ∃ k, q <+: c.drop k := by
  constructor
  · intro h
    obtain ⟨t, hqt, hts⟩ := List.infix_iff_prefix_suffix.1 h
    exact ⟨c.length - t.length, by rw [← List.suffix_iff_eq_drop.1 hts]; exact hqt⟩
  · rintro ⟨k, hk⟩
    exact List.infix_iff_prefix_suffix.2 ⟨c.drop k, hk, List.drop_suffix k c⟩

theorem Index.Lookup_all (x : Index) (s : Bytes) :
    x.Lookup s (-1) = if s = [] ∨ x.lookupAll s = [] then none else some (x.lookupAll s) := by
  unfold Index.Lookup
  by_cases hs : s = []
  · simp [hs]
  · have hlen : 0 < s.length := List.length_pos.2 hs
    by_cases hl : x.lookupAll s = []
    · simp [hs, hl]
    · have hlen2 : 0 < (x.lookupAll s).length := List.length_pos.2 hl
      simp [hs, hl, hlen, hlen2]

theorem lookupAll_new (data s : Bytes) :
    (suffixarrayNew data).lookupAll s =
      (suffixarrayNew data).sa.filter (fun k => hasPrefixBytes (data.drop k) s) :=
  (suffixarrayNew data).lookupAll_eq_filter (suffixarrayNew_sorted data) s

theorem mem_lookupAll_new (data s : Bytes) (k : Nat) :
    k ∈ (suffixarrayNew data).lookupAll s ↔ k < data.length ∧ s <+: data.drop k := by
  rw [lookupAll_new, List.mem_filter, mem_suffixarrayNew, hasPrefixBytes_iff]

theorem prefix_drop_lt (data s : Bytes) (k : Nat) (hs : s ≠ []) (h : s <+: data.drop k) :
    k < data.length := by
  by_contra hk
  rw [List.drop_eq_nil_of_le (by omega)] at h
  exact hs (List.prefix_nil.1 h)

/-- A non-nil lookup result starts with an offset at which the query occurs. -/
theorem Lookup_new_some (data s : Bytes) (i0 : Nat) (rest : List Nat)
    (h : (suffixarrayNew data).Lookup s (-1) = some (i0 :: rest)) :
    s ≠ [] ∧ i0 < data.length ∧ s <+: data.drop i0 := by
  rw [Index.Lookup_all] at h
  by_cases hc : s = [] ∨ (suffixarrayNew data).lookupAll s = []
  · simp [hc] at h
  · rw [if_neg hc] at h
    have hm : i0 ∈ (suffixarrayNew data).lookupAll s := by
      rw [Option.some.inj h]; exact List.mem_cons_self _ _
    have := (mem_lookupAll_new data s i0).1 hm
    exact ⟨fun e => hc (Or.inl e), this.1, this.2⟩

/-- The lookup result is `nil` exactly when the query is empty or does not occur. -/
theorem Lookup_new_eq_none_iff (data s : Bytes) :
    (suffixarrayNew data).Lookup s (-1) = none ↔ s = [] ∨ ¬ s <:+: data := by
  rw [Index.Lookup_all, infix_iff_exists_drop]
  constructor
  · intro h
    by_cases hs : s = []
    · exact Or.inl hs
    · right
      rintro ⟨k, hk⟩
      have hm := (mem_lookupAll_new data s k).2 ⟨prefix_drop_lt data s k hs hk, hk⟩
      by_cases hc : s = [] ∨ (suffixarrayNew data).lookupAll s = []
      · rcases hc with hc | hc
        · exact hs hc
        · rw [hc] at hm; simp at hm
      · simp [hc] at h
  · rintro (hs | hn)
    · simp [hs]
    · have : (suffixarrayNew data).lookupAll s = [] := by
        rw [List.eq_nil_iff_forall_not_mem]
        intro k hk
        exact hn ⟨k, ((mem_lookupAll_new data s k).1 hk).2⟩
      simp [this]

/-- The lookup result is never an empty non-nil slice. -/
theorem Lookup_ne_some_nil (x : Index) (s : Bytes) : x.Lookup s (-1) ≠ some [] := by
  rw [Index.Lookup_all]
  by_cases hc : s = [] ∨ x.lookupAll s = []
  · simp [hc]
  · rw [if_neg hc]
    intro h
    exact hc (Or.inr (Option.some.inj h))

/-- When the query occurs, the lookup result is a non-empty list. -/
theorem Lookup_new_of_infix (data s : Bytes) (hs : s ≠ []) (h : s <:+: data) :
    ∃ i0 rest, (suffixarrayNew data).Lookup s (-1) = some (i0 :: rest) := by
  cases hl : (suffixarrayNew data).Lookup s (-1) with
  | none =>
    rcases (Lookup_new_eq_none_iff data s).1 hl with h1 | h1
    · exact absurd h1 hs
    · exact absurd h h1
  | some l =>
    cases l with
    | nil => exact absurd hl (Lookup_ne_some_nil _ _)
    | cons i0 rest => exact ⟨i0, rest, rfl⟩

/-! ## The context window -/

theorem startIndex_natCast (i : Nat) : startIndex (i : Int) = ((i - 125 : Nat) : Int) := by
  unfold startIndex
  simp only
  split_ifs <;> omega

theorem endIndex_natCast (n i : Nat) :
    endIndex (n : Int) (i : Int) = ((min n (i + 125) : Nat) : Int) := by
  unfold endIndex
  simp only
  split_ifs <;> omega

theorem sliceString_natCast (s : Bytes) (lo hi : Nat) (h1 : lo ≤ hi) (h2 : hi ≤ s.length) :
    sliceString s (lo : Int) (hi : Int) = .ok (corpusSlice s lo hi) := by
  unfold sliceString corpusSlice
  have hc : (0 : Int) ≤ (lo : Int) ∧ (lo : Int) ≤ (hi : Int) ∧ (hi : Int) ≤ (s.length : Int) :=
    ⟨by omega, by omega, by omega⟩
  rw [if_pos hc]
  simp

/-- The first block of `Search` on a consistent Searcher whose lookup selects `i0`. -/
theorem searchContext_withText (corpus : Bytes) (plays : GoSlice Play) (query : Bytes)
    (results : GoSlice GoMap) (i0 : Nat) (rest : List Nat)
    (h : (suffixarrayNew corpus).Lookup query (-1) = some (i0 :: rest)) :
    (Searcher.withText corpus plays).searchContext query results =
      .ok (results.append
        [("Context", corpusSlice corpus (i0 - 125) (min corpus.length (i0 + 125)))]) := by
  have hi0 := (Lookup_new_some corpus query i0 rest h).2.1
  simp only [Searcher.searchContext, Searcher.withText, h]
  rw [startIndex_natCast, endIndex_natCast,
    sliceString_natCast corpus _ _ (by omega) (by omega)]

theorem searchContext_withText_none (corpus : Bytes) (plays : GoSlice Play) (query : Bytes)
    (results : GoSlice GoMap) (h : (suffixarrayNew corpus).Lookup query (-1) = none) :
    (Searcher.withText corpus plays).searchContext query results = .ok results := by
  simp only [Searcher.searchContext, Searcher.withText, h]

/-! ## Claims about the context window -/

theorem corpusSlice_length (corpus : Bytes) (lo hi : Nat) (h : hi ≤ corpus.length) :
    (corpusSlice corpus lo hi).length = hi - lo := by
  simp only [corpusSlice, List.length_take, List.length_drop]
  omega

/-- A stretch of the corpus lying inside a slice is a contiguous part of that slice. -/
theorem infix_corpusSlice (corpus : Bytes) (lo hi a len : Nat) (h1 : lo ≤ a)
    (h2 : a + len ≤ hi) : (corpus.drop a).take len <:+: corpusSlice corpus lo hi := by
  refine List.infix_iff_prefix_suffix.2 ⟨(corpusSlice corpus lo hi).drop (a - lo), ?_,
    List.drop_suffix _ _⟩
  have e : (corpusSlice corpus lo hi).drop (a - lo) = (corpus.drop a).take (hi - a) := by
    simp only [corpusSlice, List.drop_take, List.drop_drop]
    have e1 : hi - lo - (a - lo) = hi - a := by omega
    have e2 : lo + (a - lo) = a := by omega
    rw [e1, e2]
  rw [e]
  exact List.take_prefix_take_left _ (by omega)

theorem Search_withText_none_plays (simpleFold : Nat → Nat) (corpus query : Bytes)
    (i0 : Nat) (rest : List Nat)
    (h : (suffixarrayNew corpus).Lookup query (-1) = some (i0 :: rest)) :
    Searcher.Search simpleFold (Searcher.withText corpus none) query =
      .ok (some [[("Context", corpusSlice corpus (i0 - 125) (min corpus.length (i0 + 125)))]]) := by
  simp only [Searcher.Search, searchContext_withText corpus none query _ i0 rest h]
  rfl


/-- C2: when the lookup selects offset `i`, the Context returned by Search is exactly the
slice of the corpus from `max(0, i-125)` inclusive to `min(n, i+125)` exclusive, each end
clamped on its own: it is the only entry for a text-only Searcher and the first entry
before the quote matches otherwise; for the corpus "abcXYZdef" and the query "XYZ" the
Context is the whole string "abcXYZdef". -/
theorem Search_context_is_clamped_slice (simpleFold : Nat → Nat) (corpus : Bytes)
    (plays : GoSlice Play) (query : Bytes) (i : Nat) (rest : List Nat)
    (h : (suffixarrayNew corpus).Lookup query (-1) = some (i :: rest)) :
    Searcher.Search simpleFold (Searcher.withText corpus none) query =
        .ok (some [[("Context", corpusSlice corpus (max 0 ((i : Int) - 125)).toNat
          (min (corpus.length : Int) ((i : Int) + 125)).toNat)]]) ∧
      Searcher.Search simpleFold (Searcher.withText corpus plays) query =
        .ok ((Searcher.withText corpus plays).searchPlays simpleFold query
          (some [[("Context", corpusSlice corpus (max 0 ((i : Int) - 125)).toNat
            (min (corpus.length : Int) ((i : Int) + 125)).toNat)]])) ∧
      Searcher.Search simpleFold (Searcher.withText (asciiBytes "abcXYZdef") none)
        (asciiBytes "XYZ") = .ok (some [[("Context", asciiBytes "abcXYZdef")]]) := by
  have e1 : (max 0 ((i : Int) - 125)).toNat = i - 125 := by omega
  have e2 : (min (corpus.length : Int) ((i : Int) + 125)).toNat
      = min corpus.length (i + 125) := by omega
  rw [e1, e2]
  refine ⟨Search_withText_none_plays simpleFold corpus query i rest h, ?_, ?_⟩
  · simp only [Searcher.Search, searchContext_withText corpus plays query _ i rest h]
    rfl
  · exact Search_withText_none_plays simpleFold (asciiBytes "abcXYZdef") (asciiBytes "XYZ")
      3 [] (by decide)

/-- Witness for C2: the corpus "abcXYZdef" with the query "XYZ", found at offset 3. -/
theorem Search_context_is_clamped_slice_witness :
    (suffixarrayNew (asciiBytes "abcXYZdef")).Lookup (asciiBytes "XYZ") (-1) = some [3] ∧
      Searcher.Search simpleFoldAscii (Searcher.withText (asciiBytes "abcXYZdef") none)
        (asciiBytes "XYZ") = .ok (some [[("Context", asciiBytes "abcXYZdef")]]) :=
  ⟨by decide,
    (Search_context_is_clamped_slice simpleFoldAscii (asciiBytes "abcXYZdef") none
      (asciiBytes "XYZ") 3 [] (by decide)).2.2⟩

/-- The second block of `Search` cannot fail, so `Search` fails only in its first block. -/
theorem Search_ok_of_searchContext_ok (simpleFold : Nat → Nat) (s : Searcher) (query : Bytes)
    (h : ∃ r, s.searchContext query (some []) = .ok r) :
    ∃ results, Searcher.Search simpleFold s query = .ok results := by
  obtain ⟨r, hr⟩ := h
  exact ⟨s.searchPlays simpleFold query r, by simp only [Searcher.Search, hr]⟩

theorem searchContext_ok_of_consistent (s : Searcher) (query : Bytes)
    (results : GoSlice GoMap) (hs : s.Consistent) :
    ∃ r, s.searchContext query results = .ok r := by
  obtain ⟨corpus, sa, plays⟩ := s
  rcases hs with hs | hs
  · simp only at hs
    subst hs
    exact ⟨results, rfl⟩
  · simp only at hs
    subst hs
    cases hl : (suffixarrayNew corpus).Lookup query (-1) with
    | none => exact ⟨results, searchContext_withText_none corpus plays query results hl⟩
    | some l =>
      cases l with
      | nil => exact absurd hl (Lookup_ne_some_nil _ _)
      | cons i0 rest => exact ⟨_, searchContext_withText corpus plays query results i0 rest hl⟩

/-- C10: on a Searcher whose suffix array indexes its CompleteWorks, Search never fails,
for any query: every offset `i` the lookup can select satisfies `0 ≤ i ≤ n`, and for such
`i` the window bounds satisfy `0 ≤ startIndex ≤ endIndex ≤ n`, so the slice
`CompleteWorks[startIndex:endIndex]` is in range. -/
theorem Search_window_in_range (simpleFold : Nat → Nat) (s : Searcher) (query : Bytes)
    (hs : s.Consistent) :
    (∃ results, Searcher.Search simpleFold s query = .ok results) ∧
      (∀ sa i rest, s.SuffixArray = some sa → sa.Lookup query (-1) = some (i :: rest) →
        i ≤ s.CompleteWorks.length) ∧
      (∀ n i : Int, 0 ≤ i → i ≤ n →
        0 ≤ startIndex i ∧ startIndex i ≤ endIndex n i ∧ endIndex n i ≤ n) := by
  refine ⟨Search_ok_of_searchContext_ok simpleFold s query
    (searchContext_ok_of_consistent s query _ hs), ?_, ?_⟩
  · intro sa i rest hsa hl
    rcases hs with hs | hs
    · rw [hs] at hsa; exact absurd hsa (by simp)
    · rw [hs] at hsa
      have := Option.some.inj hsa
      subst this
      exact Nat.le_of_lt (Lookup_new_some _ query i rest hl).2.1
  · intro n i h0 hn
    unfold startIndex endIndex
    simp only
    split_ifs <;> omega

/-- Witness for C10: the text-only Searcher over "abcXYZdef". -/
theorem Search_window_in_range_witness :
    (Searcher.withText (asciiBytes "abcXYZdef") none).Consistent ∧
      ∃ results, Searcher.Search simpleFoldAscii
        (Searcher.withText (asciiBytes "abcXYZdef") none) (asciiBytes "XYZ") = .ok results :=
  ⟨Or.inr rfl,
    (Search_window_in_range simpleFoldAscii (Searcher.withText (asciiBytes "abcXYZdef") none)
      (asciiBytes "XYZ") (Or.inr rfl)).1⟩

/-- C5: for a query that does not occur in the corpus, Search on a text-only Searcher
(SuffixArray set, Plays nil) does not fail and returns the empty, non-nil result slice:
no Context entry. -/
theorem Search_absent_query_empty (simpleFold : Nat → Nat) (corpus q : Bytes)
    (h : ¬ q <:+: corpus) :
    Searcher.Search simpleFold (Searcher.withText corpus none) q = .ok (some []) := by
  have hl := (Lookup_new_eq_none_iff corpus q).2 (Or.inr h)
  simp only [Searcher.Search, searchContext_withText_none corpus none q _ hl]
  rfl

/-- Witness for C5: "xyz" does not occur in "abcXYZdef" (the match is case-sensitive). -/
theorem Search_absent_query_empty_witness :
    ¬ asciiBytes "xyz" <:+: asciiBytes "abcXYZdef" ∧
      Searcher.Search simpleFoldAscii (Searcher.withText (asciiBytes "abcXYZdef") none)
        (asciiBytes "xyz") = .ok (some []) :=
  ⟨by decide, Search_absent_query_empty simpleFoldAscii (asciiBytes "abcXYZdef")
    (asciiBytes "xyz") (by decide)⟩

/-- C3, counterexample: the corpus of 126 distinct bytes queried for itself; the query
occurs (at offset 0) but the Context is the first 125 bytes, which cannot contain it. -/
theorem Search_context_misses_long_query :
    corpus126 ≠ [] ∧ corpus126 <:+: corpus126 ∧
      Searcher.Search simpleFoldAscii (Searcher.withText corpus126 none) corpus126 =
        .ok (some [[("Context", corpus126.take 125)]]) ∧
      ¬ corpus126 <:+: corpus126.take 125 := by
  refine ⟨by decide, List.infix_refl _, ?_, ?_⟩
  · have h := Search_withText_none_plays simpleFoldAscii corpus126 corpus126 0 []
      (by decide!)
    have e : corpusSlice corpus126 (0 - 125) (min corpus126.length (0 + 125))
        = corpus126.take 125 := by decide!
    rw [e] at h
    exact h
  · intro h
    have := h.length_le
    simp [corpus126] at this

/-- C3, amended: for a non-empty query of at most 125 bytes that occurs in the corpus,
the Context window returned by Search contains the query as a contiguous substring. -/
theorem Search_context_contains_query (simpleFold : Nat → Nat) (corpus q : Bytes)
    (hq : q ≠ []) (hocc : q <:+: corpus) (hlen : q.length ≤ 125) :
    ∃ w, Searcher.Search simpleFold (Searcher.withText corpus none) q =
        .ok (some [[("Context", w)]]) ∧ q <:+: w := by
  obtain ⟨i0, rest, hl⟩ := Lookup_new_of_infix corpus q hq hocc
  obtain ⟨_, hi0, hpre⟩ := Lookup_new_some corpus q i0 rest hl
  refine ⟨_, Search_withText_none_plays simpleFold corpus q i0 rest hl, ?_⟩
  have hle : i0 + q.length ≤ corpus.length := by
    have := hpre.length_le
    simp only [List.length_drop] at this
    omega
  have hq' : q = (corpus.drop i0).take q.length := List.prefix_iff_eq_take.1 hpre
  have := infix_corpusSlice corpus (i0 - 125) (min corpus.length (i0 + 125)) i0 q.length
    (by omega) (by omega)
  rw [← hq'] at this
  exact this

/-- Witness for the amended C3: "XYZ" in "abcXYZdef". -/
theorem Search_context_contains_query_witness :
    ∃ w, Searcher.Search simpleFoldAscii (Searcher.withText (asciiBytes "abcXYZdef") none)
        (asciiBytes "XYZ") = .ok (some [[("Context", w)]]) ∧ asciiBytes "XYZ" <:+: w :=
  Search_context_contains_query simpleFoldAscii (asciiBytes "abcXYZdef") (asciiBytes "XYZ")
    (by decide) (by decide) (by decide)

/-- C4, counterexample: in the corpus of 200 distinct bytes the query `[0]` occurs at
offset 0 and the Context has 125 bytes, not `min(250, 200) = 200`. -/
theorem Search_context_length_not_min :
    [0] <:+: corpus200 ∧
      Searcher.Search simpleFoldAscii (Searcher.withText corpus200 none) [0] =
        .ok (some [[("Context", corpus200.take 125)]]) ∧
      (corpus200.take 125).length = 125 ∧ min 250 corpus200.length = 200 := by
  refine ⟨by decide!, ?_, by decide!, by decide!⟩
  have h := Search_withText_none_plays simpleFoldAscii corpus200 [0] 0 [] (by decide!)
  have e : corpusSlice corpus200 (0 - 125) (min corpus200.length (0 + 125))
      = corpus200.take 125 := by decide!
  rw [e] at h
  exact h

/-- C4, amended: for a non-empty query that occurs in a corpus of length `n`, with `i` the
offset the lookup selects, the Context has length exactly `min(n, i+125) - max(0, i-125)`;
this never exceeds `min(250, n)` and equals it exactly when both ends of the window are
clamped or neither is (`i ≤ 125` and `n ≤ i+125`, or `125 ≤ i` and `i+125 ≤ n`). -/
theorem Search_context_length (simpleFold : Nat → Nat) (corpus q : Bytes)
    (hq : q ≠ []) (hocc : q <:+: corpus) :
    ∃ i rest w, (suffixarrayNew corpus).Lookup q (-1) = some (i :: rest) ∧
      Searcher.Search simpleFold (Searcher.withText corpus none) q =
        .ok (some [[("Context", w)]]) ∧
      w.length = min corpus.length (i + 125) - (i - 125) ∧
      w.length ≤ min 250 corpus.length ∧
      (w.length = min 250 corpus.length ↔
        (i ≤ 125 ∧ corpus.length ≤ i + 125) ∨ (125 ≤ i ∧ i + 125 ≤ corpus.length)) := by
  obtain ⟨i0, rest, hl⟩ := Lookup_new_of_infix corpus q hq hocc
  obtain ⟨_, hi0, _⟩ := Lookup_new_some corpus q i0 rest hl
  refine ⟨i0, rest, _, hl, Search_withText_none_plays simpleFold corpus q i0 rest hl, ?_⟩
  rw [corpusSlice_length corpus _ _ (by omega)]
  refine ⟨rfl, by omega, by omega⟩

/-- Witness for the amended C4: "XYZ" in "abcXYZdef". -/
theorem Search_context_length_witness :
    ∃ i rest w, (suffixarrayNew (asciiBytes "abcXYZdef")).Lookup (asciiBytes "XYZ") (-1)
        = some (i :: rest) ∧
      Searcher.Search simpleFoldAscii (Searcher.withText (asciiBytes "abcXYZdef") none)
        (asciiBytes "XYZ") = .ok (some [[("Context", w)]]) ∧
      w.length = min (asciiBytes "abcXYZdef").length (i + 125) - (i - 125) ∧
      w.length ≤ min 250 (asciiBytes "abcXYZdef").length ∧
      (w.length = min 250 (asciiBytes "abcXYZdef").length ↔
        (i ≤ 125 ∧ (asciiBytes "abcXYZdef").length ≤ i + 125) ∨
          (125 ≤ i ∧ i + 125 ≤ (asciiBytes "abcXYZdef").length)) :=
  Search_context_length simpleFoldAscii (asciiBytes "abcXYZdef") (asciiBytes "XYZ")
    (by decide) (by decide)

/-- C1, the code at the failing input: in the corpus `ab`, 130 other bytes, `aa` the query
`a` occurs at offsets 0, 132 and 133; the lookup lists them in suffix order, 133 first, and
Search builds its Context around offset 133 (bytes 8 to 134), not around the lowest offset 0
(which would give bytes 0 to 125). -/
theorem Search_context_not_lowest_offset :
    asciiBytes "a" <+: corpusAbAa.drop 0 ∧
      (suffixarrayNew corpusAbAa).Lookup (asciiBytes "a") (-1) = some [133, 132, 0] ∧
      Searcher.Search simpleFoldAscii (Searcher.withText corpusAbAa none) (asciiBytes "a") =
        .ok (some [[("Context", corpusSlice corpusAbAa 8 134)]]) ∧
      corpusSlice corpusAbAa 8 134 ≠ corpusSlice corpusAbAa 0 125 := by
  refine ⟨by decide!, by decide!, ?_, by decide!⟩
  have h := Search_withText_none_plays simpleFoldAscii corpusAbAa (asciiBytes "a") 133
    [132, 0] (by decide!)
  have e : corpusSlice corpusAbAa (133 - 125) (min corpusAbAa.length (133 + 125))
      = corpusSlice corpusAbAa 8 134 := by decide!
  rw [e] at h
  exact h

/-! ## The quote matches -/

theorem words_foldl (p : Bytes → Bool) (m : GoMap) : ∀ (words : List Bytes) (acc : List GoMap),
    words.foldl (fun (results : GoSlice GoMap) word =>
        if p word then results.append m else results) (some acc)
      = some (acc ++ List.replicate (words.countP p) m)
  | [], acc => by simp
  | word :: words, acc => by
    rw [List.foldl_cons]
    by_cases h : p word = true
    · rw [if_pos h]
      have e : GoSlice.append (some acc) m = some (acc ++ [m]) := rfl
      rw [e, words_foldl p m words, List.countP_cons_of_pos _ _ h, List.replicate_succ,
        List.append_assoc]
      rfl
    · rw [if_neg h, words_foldl p m words, List.countP_cons_of_neg _ _ h]

theorem plays_foldl (simpleFold : Nat → Nat) (query : Bytes) :
    ∀ (plays : List Play) (acc : List GoMap),
    plays.foldl (fun (results : GoSlice GoMap) play =>
        (Fields play.Quote).foldl (fun (results : GoSlice GoMap) word =>
          if EqualFold simpleFold word query then results.append (playResult play)
          else results) results) (some acc)
      = some (acc ++ plays.flatMap (fun play =>
          List.replicate (matchCount simpleFold play.Quote query) (playResult play)))
  | [], acc => by simp
  | play :: plays, acc => by
    rw [List.foldl_cons, words_foldl (fun word => EqualFold simpleFold word query),
      plays_foldl simpleFold query plays]
    simp [List.flatMap_cons, matchCount, List.append_assoc]

/-- The second block of `Search` appends, record by record in stored order, one entry
for every matching word. -/
theorem searchPlays_some (simpleFold : Nat → Nat) (corpus : Bytes) (sa : Option Index)
    (plays : List Play) (query : Bytes) (acc : List GoMap) :
    Searcher.searchPlays simpleFold
        { CompleteWorks := corpus, SuffixArray := sa, Plays := some plays } query (some acc)
      = some (acc ++ plays.flatMap (fun play =>
          List.replicate (matchCount simpleFold play.Quote query) (playResult play))) := by
  simp only [Searcher.searchPlays]
  exact plays_foldl simpleFold query plays acc

theorem Search_withPlays (simpleFold : Nat → Nat) (plays : List Play) (query : Bytes) :
    Searcher.Search simpleFold (Searcher.withPlays (some plays)) query
      = .ok (some (plays.flatMap (fun play =>
          List.replicate (matchCount simpleFold play.Quote query) (playResult play)))) := by
  simp only [Searcher.Search, Searcher.withPlays, Searcher.searchContext]
  rw [searchPlays_some]
  simp

theorem playResult_injective : Function.Injective playResult := by
  intro a b h
  obtain ⟨t1, p1, l1, q1⟩ := a
  obtain ⟨t2, p2, l2, q2⟩ := b
  simp only [playResult, List.cons.injEq, Prod.mk.injEq, true_and, and_true] at h
  obtain ⟨rfl, rfl, rfl, rfl⟩ := h
  rfl

theorem count_flatMap_replicate (f : Play → Nat) (r : Play) : ∀ plays : List Play,
    (plays.flatMap (fun play => List.replicate (f play) (playResult play))).count (playResult r)
      = f r * plays.count r
  | [] => by simp
  | play :: plays => by
    rw [List.flatMap_cons, List.count_append, count_flatMap_replicate f r plays,
      List.count_replicate, List.count_cons]
    by_cases h : play = r
    · subst h
      simp [Nat.mul_add, Nat.add_comm]
    · have h' : ¬ playResult play = playResult r := fun e => h (playResult_injective e)
      simp [h, h']

/-- C6, counterexample: the collection holds the record `{T1, P1, L1, "Hello world"}`
twice; exactly one word of its Quote equals "world", yet its entry is in the result of
Search twice. -/
theorem Search_duplicate_record_counted_twice :
    playHelloWorld ∈ [playHelloWorld, playHelloWorld] ∧
      matchCount simpleFoldAscii playHelloWorld.Quote (asciiBytes "world") = 1 ∧
      Searcher.Search simpleFoldAscii
          (Searcher.withPlays (some [playHelloWorld, playHelloWorld])) (asciiBytes "world")
        = .ok (some [playResult playHelloWorld, playResult playHelloWorld]) ∧
      [playResult playHelloWorld, playResult playHelloWorld].count (playResult playHelloWorld)
        = 2 := by
  refine ⟨by decide, by decide, ?_, by decide⟩
  rfl

/-- C6, amended: if exactly `k` of the whitespace-delimited words of `r`'s Quote are equal
to the query under case-insensitive comparison, the result of Search on a quotes-only
Searcher contains `r`'s entry exactly `k` times the number of records of the collection
that equal `r` in all four fields: exactly `k` times when `r` occurs once. -/
theorem Search_entry_count (simpleFold : Nat → Nat) (plays : List Play) (r : Play)
    (w : Bytes) (k : Nat) (hr : r ∈ plays) (hk : matchCount simpleFold r.Quote w = k) :
    ∃ results, Searcher.Search simpleFold (Searcher.withPlays (some plays)) w
        = .ok (some results) ∧
      results.count (playResult r) = k * plays.count r ∧
      (plays.count r = 1 → results.count (playResult r) = k) ∧ 1 ≤ plays.count r := by
  refine ⟨_, Search_withPlays simpleFold plays w, ?_, ?_, ?_⟩
  · rw [count_flatMap_replicate (fun play => matchCount simpleFold play.Quote w) r plays, hk]
  · intro h1
    rw [count_flatMap_replicate (fun play => matchCount simpleFold play.Quote w) r plays, hk,
      h1, Nat.mul_one]
  · exact List.count_pos_iff.2 hr

/-- Witness for the amended C6: "Hello world" and "world peace" queried for "WORLD". -/
theorem Search_entry_count_witness :
    ∃ results, Searcher.Search simpleFoldAscii
          (Searcher.withPlays (some [playHelloWorld, playWorldPeace])) (asciiBytes "WORLD")
        = .ok (some results) ∧
      results.count (playResult playWorldPeace)
        = 1 * [playHelloWorld, playWorldPeace].count playWorldPeace ∧
      ([playHelloWorld, playWorldPeace].count playWorldPeace = 1 →
        results.count (playResult playWorldPeace) = 1) ∧
      1 ≤ [playHelloWorld, playWorldPeace].count playWorldPeace :=
  Search_entry_count simpleFoldAscii [playHelloWorld, playWorldPeace] playWorldPeace
    (asciiBytes "WORLD") 1 (by decide) (by decide)

/-- C7: the quote matches come in the stored order of the records: the result of Search
is, record after record, the record's entry once for each matching word of its Quote (after
the Context entry, if any); for the records `{T1, P1, L1, "Hello world"}`,
`{T2, P2, L2, "world peace"}` and the query "world" the result is those two records in
that order. -/
theorem Search_matches_in_stored_order (simpleFold : Nat → Nat) (plays : List Play)
    (query : Bytes) (corpus : Bytes) (sa : Option Index) (acc : List GoMap) :
    Searcher.Search simpleFold (Searcher.withPlays (some plays)) query
        = .ok (some (plays.flatMap (fun play =>
            List.replicate (matchCount simpleFold play.Quote query) (playResult play)))) ∧
      Searcher.searchPlays simpleFold
          { CompleteWorks := corpus, SuffixArray := sa, Plays := some plays } query (some acc)
        = some (acc ++ plays.flatMap (fun play =>
            List.replicate (matchCount simpleFold play.Quote query) (playResult play))) ∧
      Searcher.Search simpleFold
          (Searcher.withPlays (some [playHelloWorld, playWorldPeace])) (asciiBytes "world")
        = .ok (some [playResult playHelloWorld, playResult playWorldPeace]) :=
  ⟨Search_withPlays simpleFold plays query,
    searchPlays_some simpleFold corpus sa plays query acc, rfl⟩

/-! ## `Load` -/

theorem playOfRecord_ok (record : List Bytes) (h : 5 ≤ record.length) :
    playOfRecord record = .ok (playOfFields record) := by
  rcases record with _ | ⟨f0, _ | ⟨f1, _ | ⟨f2, _ | ⟨f3, _ | ⟨f4, rest⟩⟩⟩⟩⟩ <;>
    simp at h
  rfl

theorem playOfRecord_panic (record : List Bytes) (h : record.length < 5) :
    playOfRecord record = .error (.panic "index out of range") := by
  rcases record with _ | ⟨f0, _ | ⟨f1, _ | ⟨f2, _ | ⟨f3, _ | ⟨f4, rest⟩⟩⟩⟩⟩
  · rfl
  · rfl
  · rfl
  · rfl
  · rfl
  · simp only [List.length_cons] at h
    omega

theorem GoSlice.elems_append {α : Type} (s : GoSlice α) (x : α) :
    (s.append x).elems = s.elems ++ [x] := by
  cases s <;> rfl

theorem loadRecords_ok : ∀ (records : List (List Bytes)) (plays : GoSlice Play),
    (∀ record ∈ records, 5 ≤ record.length) →
    ∃ plays', loadRecords records plays = .ok plays' ∧
      plays'.elems = plays.elems ++ records.map playOfFields
  | [], plays, _ => ⟨plays, rfl, by simp⟩
  | record :: rest, plays, h => by
    obtain ⟨plays', h1, h2⟩ := loadRecords_ok rest (plays.append (playOfFields record))
      (fun r hr => h r (List.mem_cons_of_mem _ hr))
    refine ⟨plays', ?_, ?_⟩
    · simp only [loadRecords, playOfRecord_ok record (h record (List.mem_cons_self _ _))]
      exact h1
    · rw [h2, GoSlice.elems_append]
      simp

theorem loadRecords_panic : ∀ (records : List (List Bytes)) (plays : GoSlice Play),
    (∃ record ∈ records, record.length < 5) →
    loadRecords records plays = .error (.panic "index out of range")
  | [], _, h => by simp at h
  | record :: rest, plays, h => by
    by_cases hr : record.length < 5
    · simp only [loadRecords, playOfRecord_panic record hr]
    · obtain ⟨r, hmem, hlt⟩ := h
      have hmem' : r ∈ rest := by
        rcases List.mem_cons.1 hmem with e | e
        · subst e; exact absurd hlt hr
        · exact e
      simp only [loadRecords, playOfRecord_ok record (by omega)]
      exact loadRecords_panic rest _ ⟨r, hmem', hlt⟩

/-- `Load` keeps a Searcher consistent: the suffix array and `CompleteWorks` are only
ever set together, from the same bytes. -/
theorem Load_consistent (openFile : Bytes → Option Bytes)
    (csvReadAll : Bytes → Except String (List (List Bytes))) (s s' : Searcher)
    (filename : Bytes) (hs : s.Consistent)
    (h : Searcher.Load openFile csvReadAll s filename = .ok s') : s'.Consistent := by
  unfold Searcher.Load at h
  cases ho : openFile filename with
  | none => simp [ho] at h
  | some dat =>
    simp only [ho] at h
    split_ifs at h with h1 h2
    · cases hc : csvReadAll dat with
      | error e => simp [hc] at h
      | ok records =>
        simp only [hc] at h
        cases hl : loadRecords records s.Plays with
        | error e => simp [hl] at h
        | ok plays =>
          simp only [hl, Except.ok.injEq] at h
          subst h
          exact hs
    · simp only [Except.ok.injEq] at h
      subst h
      exact Or.inr rfl

/-- C9, counterexample: a record set whose second row has three fields; `Load` does not
return a load error, the field access `record[3]` is out of range and `Load` panics. -/
theorem Load_short_row_panics :
    rowShort.length < 5 ∧
      Searcher.Load (fun _ => some []) (fun _ => .ok [rowHelloWorld, rowShort])
        Searcher.zero csvName = .error (.panic "index out of range") :=
  ⟨by decide, rfl⟩

/-- C9, amended: `Load` does not validate the field count of the rows. When every row has
at least 5 fields it succeeds and appends one record per row, in order, with Title,
ActSceneLine, Player and Quote taken from fields 1, 2, 3 and 4; when some row has fewer
than 5 fields the field access runs out of range and `Load` panics instead of returning a
load error. -/
theorem Load_csv_rows (openFile : Bytes → Option Bytes)
    (csvReadAll : Bytes → Except String (List (List Bytes))) (s : Searcher)
    (filename dat : Bytes) (records : List (List Bytes))
    (hopen : openFile filename = some dat)
    (hcsv : hasSuffixBytes filename (asciiBytes ".csv") = true)
    (hread : csvReadAll dat = .ok records) :
    ((∀ record ∈ records, 5 ≤ record.length) →
        ∃ plays, Searcher.Load openFile csvReadAll s filename = .ok { s with Plays := plays } ∧
          plays.elems = s.Plays.elems ++ records.map playOfFields) ∧
      ((∃ record ∈ records, record.length < 5) →
        Searcher.Load openFile csvReadAll s filename
          = .error (.panic "index out of range")) := by
  constructor
  · intro h
    obtain ⟨plays, h1, h2⟩ := loadRecords_ok records s.Plays h
    exact ⟨plays, by simp only [Searcher.Load, hopen, hcsv, if_true, hread, h1], h2⟩
  · intro h
    simp only [Searcher.Load, hopen, hcsv, if_true, hread, loadRecords_panic records s.Plays h]

/-- Witness for the amended C9: a file of one row of five fields. -/
theorem Load_csv_rows_witness :
    hasSuffixBytes csvName (asciiBytes ".csv") = true ∧
      (∀ record ∈ [rowHelloWorld], 5 ≤ record.length) ∧
      ∃ plays, Searcher.Load (fun _ => some []) (fun _ => .ok [rowHelloWorld])
          Searcher.zero csvName = .ok { Searcher.zero with Plays := plays } ∧
        plays.elems = Searcher.zero.Plays.elems ++ [rowHelloWorld].map playOfFields :=
  ⟨by decide, by decide,
    (Load_csv_rows (fun _ => some []) (fun _ => .ok [rowHelloWorld]) Searcher.zero csvName []
      [rowHelloWorld] rfl (by decide) rfl).1 (by decide)⟩

/-! ## UTF-8 decoding -/

theorem utf8First_size (s0 sz lo hi : Nat) (h : utf8First s0 = some (sz, lo, hi)) :
    sz = 2 ∨ sz = 3 ∨ sz = 4 := by
  unfold utf8First at h
  split_ifs at h <;> simp at h <;> omega

theorem decodeMulti_size (s0 sz lo hi n s1 s2 s3 : Nat) (hsz : sz = 2 ∨ sz = 3 ∨ sz = 4) :
    decodeMulti s0 sz lo hi n s1 s2 s3 = (RuneError, 1) ∨
      (sz ≤ n ∧ (decodeMulti s0 sz lo hi n s1 s2 s3).2 = sz) := by
  unfold decodeMulti
  rcases hsz with rfl | rfl | rfl <;> split_ifs <;> simp <;> omega

/-- The multi-byte path reads `s[k]` only for `k` below the width it returns. -/
theorem decodeMulti_stable (s0 sz lo hi n s1 s2 s3 m t1 t2 t3 : Nat)
    (hsz : sz = 2 ∨ sz = 3 ∨ sz = 4) (hm : m ≤ n)
    (h : (decodeMulti s0 sz lo hi n s1 s2 s3).2 ≤ m)
    (h1 : 1 < m → t1 = s1) (h2 : 2 < m → t2 = s2) (h3 : 3 < m → t3 = s3) :
    decodeMulti s0 sz lo hi m t1 t2 t3 = decodeMulti s0 sz lo hi n s1 s2 s3 := by
  rcases decodeMulti_size s0 sz lo hi n s1 s2 s3 hsz with he | ⟨hn, he⟩
  · rw [he]
    by_cases hlt : m < sz
    · simp [decodeMulti, hlt]
    · rw [← he]
      have e1 := h1 (by omega)
      subst e1
      rcases hsz with rfl | rfl | rfl
      · simp [decodeMulti, hlt, show ¬ n < 2 by omega]
      · have e2 := h2 (by omega)
        subst e2
        simp [decodeMulti, hlt, show ¬ n < 3 by omega]
      · have e2 := h2 (by omega)
        have e3 := h3 (by omega)
        subst e2 e3
        simp [decodeMulti, hlt, show ¬ n < 4 by omega]
  · rw [he] at h
    have e1 := h1 (by omega)
    subst e1
    rcases hsz with rfl | rfl | rfl
    · simp [decodeMulti, show ¬ m < 2 by omega, show ¬ n < 2 by omega]
    · have e2 := h2 (by omega)
      subst e2
      simp [decodeMulti, show ¬ m < 3 by omega, show ¬ n < 3 by omega]
    · have e2 := h2 (by omega)
      have e3 := h3 (by omega)
      subst e2 e3
      simp [decodeMulti, show ¬ m < 4 by omega, show ¬ n < 4 by omega]

theorem decodeRune_size_pos (b : Nat) (bs : Bytes) : 1 ≤ (decodeRune (b :: bs)).2 := by
  simp only [decodeRune]
  by_cases h0 : b < 0x80
  · simp [h0]
  · rw [if_neg h0]
    cases hu : utf8First b with
    | none => simp
    | some v =>
      obtain ⟨sz, lo, hi⟩ := v
      simp only
      rcases decodeMulti_size b sz lo hi (b :: bs).length ((b :: bs).getD 1 0)
        ((b :: bs).getD 2 0) ((b :: bs).getD 3 0) (utf8First_size _ _ _ _ hu) with he | ⟨_, he⟩
      · rw [he]
      · rw [he]
        have := utf8First_size _ _ _ _ hu
        omega

theorem decodeRune_size_le (s : Bytes) : (decodeRune s).2 ≤ s.length := by
  cases s with
  | nil => simp [decodeRune]
  | cons s0 t =>
    simp only [decodeRune]
    by_cases h0 : s0 < 0x80
    · simp [h0]
    · rw [if_neg h0]
      cases hu : utf8First s0 with
      | none => simp
      | some v =>
        obtain ⟨sz, lo, hi⟩ := v
        simp only
        rcases decodeMulti_size s0 sz lo hi (s0 :: t).length ((s0 :: t).getD 1 0)
          ((s0 :: t).getD 2 0) ((s0 :: t).getD 3 0) (utf8First_size _ _ _ _ hu) with he | ⟨hn, he⟩
        · rw [he]; simp
        · rw [he]; exact hn

theorem getD_append_left (p t : Bytes) (k : Nat) (h : k < p.length) :
    (p ++ t).getD k 0 = p.getD k 0 := by
  simp [List.getD_eq_getElem?_getD, List.getElem?_append_left h]

/-- Decoding looks at no byte beyond the rune it returns: a prefix of the string that
holds the whole rune decodes to the same rune. -/
theorem decodeRune_append (p t : Bytes) (h : (decodeRune (p ++ t)).2 ≤ p.length) :
    decodeRune p = decodeRune (p ++ t) := by
  cases p with
  | nil =>
    cases t with
    | nil => rfl
    | cons b bs =>
      have := decodeRune_size_pos b bs
      simp only [List.nil_append, List.length_nil] at h
      omega
  | cons s0 p =>
    revert h
    simp only [decodeRune, List.cons_append]
    by_cases h0 : s0 < 0x80
    · simp [h0]
    · rw [if_neg h0, if_neg h0]
      cases hu : utf8First s0 with
      | none => intro _; rfl
      | some v =>
        obtain ⟨sz, lo, hi⟩ := v
        simp only
        intro h
        have e : s0 :: (p ++ t) = (s0 :: p) ++ t := rfl
        rw [e] at h ⊢
        exact decodeMulti_stable _ _ _ _ _ _ _ _ _ _ _ _ (utf8First_size _ _ _ _ hu)
          (by simp) h
          (fun hk => (getD_append_left (s0 :: p) t 1 hk).symm)
          (fun hk => (getD_append_left (s0 :: p) t 2 hk).symm)
          (fun hk => (getD_append_left (s0 :: p) t 3 hk).symm)

/-! ## The runes of a string and of its fields -/

theorem rangeStringAux_fuel : ∀ (fuel1 fuel2 : Nat) (b : Bytes),
    b.length ≤ fuel1 → b.length ≤ fuel2 → rangeStringAux fuel1 b = rangeStringAux fuel2 b
  | _, _, [], _, _ => by
    rename_i fuel1 fuel2
    cases fuel1 <;> cases fuel2 <;> rfl
  | 0, _, _ :: _, h, _ => by simp at h
  | _ + 1, 0, _ :: _, _, h => by simp at h
  | fuel1 + 1, fuel2 + 1, x :: xs, h1, h2 => by
    have hpos := decodeRune_size_pos x xs
    have hlen : ((x :: xs).drop (decodeRune (x :: xs)).2).length ≤ xs.length := by
      simp only [List.length_drop, List.length_cons]
      omega
    simp only [List.length_cons] at h1 h2
    simp only [rangeStringAux]
    rw [rangeStringAux_fuel fuel1 fuel2 _ (by omega) (by omega)]

theorem rangeString_cons (x : Nat) (xs : Bytes) :
    rangeString (x :: xs) =
      ((decodeRune (x :: xs)).1, (x :: xs).take (decodeRune (x :: xs)).2) ::
        rangeString ((x :: xs).drop (decodeRune (x :: xs)).2) := by
  have hpos := decodeRune_size_pos x xs
  have hlen : ((x :: xs).drop (decodeRune (x :: xs)).2).length ≤ xs.length := by
    simp only [List.length_drop, List.length_cons]
    omega
  simp only [rangeString, List.length_cons, rangeStringAux]
  rw [rangeStringAux_fuel xs.length _ _ hlen (le_refl _)]

theorem stringRunes_nil : stringRunes [] = [] := rfl

theorem stringRunes_cons (x : Nat) (xs : Bytes) :
    stringRunes (x :: xs) =
      (decodeRune (x :: xs)).1 :: stringRunes ((x :: xs).drop (decodeRune (x :: xs)).2) := by
  simp only [stringRunes, rangeString_cons, List.map_cons]

/-- The runes of a rune's bytes followed by `p`, when `p` continues as the string did. -/
theorem stringRunes_take_append (x : Nat) (xs p t : Bytes)
    (h : (x :: xs).drop (decodeRune (x :: xs)).2 = p ++ t) :
    stringRunes ((x :: xs).take (decodeRune (x :: xs)).2 ++ p) =
      (decodeRune (x :: xs)).1 :: stringRunes p := by
  have hpos := decodeRune_size_pos x xs
  have hle := decodeRune_size_le (x :: xs)
  have hb : (x :: xs) = ((x :: xs).take (decodeRune (x :: xs)).2 ++ p) ++ t := by
    rw [List.append_assoc, ← h, List.take_append_drop]
  have hlen : ((x :: xs).take (decodeRune (x :: xs)).2).length = (decodeRune (x :: xs)).2 := by
    rw [List.length_take]; omega
  have hd : decodeRune ((x :: xs).take (decodeRune (x :: xs)).2 ++ p) = decodeRune (x :: xs) := by
    have := decodeRune_append ((x :: xs).take (decodeRune (x :: xs)).2 ++ p) t
      (by rw [← hb, List.length_append, hlen]; omega)
    rw [this, ← hb]
  generalize hq : (x :: xs).take (decodeRune (x :: xs)).2 = q at hlen hd
  cases q with
  | nil => simp only [List.length_nil] at hlen; omega
  | cons y ys =>
    rw [List.cons_append, stringRunes_cons, ← List.cons_append, hd]
    congr 1
    rw [List.drop_append_eq_append_drop, ← hlen]
    simp

/-- Every field found by the loop of `FieldsFunc` is free of white space. -/
theorem fieldsLoop_noSpace : ∀ (n : Nat) (b cur : Bytes) (R : List Nat), b.length ≤ n →
    (∀ r ∈ R, isSpace r = false) →
    (∀ p, p <+: b → stringRunes (cur ++ p) = R ++ stringRunes p) →
    ∀ w ∈ fieldsLoop (rangeString b) cur, ∀ r ∈ stringRunes w, isSpace r = false
  | _, [], cur, R, _, hR, hinv => by
    intro w hw r hr
    have hcur : stringRunes cur = R := by
      have := hinv [] (List.prefix_refl _)
      simpa [stringRunes_nil] using this
    simp only [rangeString, List.length_nil, rangeStringAux, fieldsLoop] at hw
    split_ifs at hw with hc
    · simp at hw
    · simp only [List.mem_singleton] at hw
      subst hw
      rw [hcur] at hr
      exact hR r hr
  | 0, _ :: _, _, _, h, _, _ => by simp at h
  | n + 1, x :: xs, cur, R, hn, hR, hinv => by
    intro w hw r hr
    have hcur : stringRunes cur = R := by
      have := hinv [] List.nil_prefix
      simpa [stringRunes_nil] using this
    have hpos := decodeRune_size_pos x xs
    have hlen : ((x :: xs).drop (decodeRune (x :: xs)).2).length ≤ n := by
      simp only [List.length_drop, List.length_cons] at hn ⊢
      omega
    have hnil : ∀ p, p <+: (x :: xs).drop (decodeRune (x :: xs)).2 →
        stringRunes ([] ++ p) = [] ++ stringRunes p := fun _ _ => rfl
    rw [rangeString_cons, fieldsLoop] at hw
    by_cases hsp : isSpace (decodeRune (x :: xs)).1 = true
    · rw [if_pos hsp] at hw
      by_cases hc : cur = []
      · rw [if_pos hc] at hw
        exact fieldsLoop_noSpace n _ [] [] hlen (by simp) hnil w hw r hr
      · rw [if_neg hc] at hw
        rcases List.mem_cons.1 hw with e | hw
        · subst e
          rw [hcur] at hr
          exact hR r hr
        · exact fieldsLoop_noSpace n _ [] [] hlen (by simp) hnil w hw r hr
    · rw [if_neg hsp] at hw
      refine fieldsLoop_noSpace n _ _ (R ++ [(decodeRune (x :: xs)).1]) hlen ?_ ?_ w hw r hr
      · intro r hr
        rcases List.mem_append.1 hr with h | h
        · exact hR r h
        · simp only [List.mem_singleton] at h
          subst h
          simpa using hsp
      · intro p hp
        obtain ⟨t, ht⟩ := hp
        have hpre : (x :: xs).take (decodeRune (x :: xs)).2 ++ p <+: x :: xs :=
          ⟨t, by rw [List.append_assoc, ht, List.take_append_drop]⟩
        rw [List.append_assoc, hinv _ hpre, stringRunes_take_append x xs p t ht.symm]
        simp

theorem Fields_noSpace (s w : Bytes) (hw : w ∈ Fields s) :
    ∀ r ∈ stringRunes w, isSpace r = false :=
  fieldsLoop_noSpace s.length s [] [] (le_refl _) (by simp) (fun _ _ => rfl) w hw

/-! ## Case folding and white space -/

theorem isSpace_iff (r : Nat) : isSpace r = true ↔
    (0x09 ≤ r ∧ r ≤ 0x0D) ∨ r = 0x20 ∨ r = 0x85 ∨ r = 0xA0 ∨ r = 0x1680 ∨
      (0x2000 ≤ r ∧ r ≤ 0x200A) ∨ r = 0x2028 ∨ r = 0x2029 ∨ r = 0x202F ∨ r = 0x205F ∨
      r = 0x3000 := by
  simp only [isSpace, Bool.or_eq_true, Bool.and_eq_true, decide_eq_true_eq, beq_iff_eq]
  tauto

theorem foldOrbit_space (simpleFold : Nat → Nat) (sr tr : Nat)
    (hinj : ∀ r, isSpace (simpleFold r) = true → isSpace r = true) :
    ∀ (fuel r : Nat), isSpace (foldOrbit simpleFold sr tr fuel r) = true → isSpace r = true
  | 0, _, h => h
  | fuel + 1, r, h => by
    simp only [foldOrbit] at h
    split_ifs at h
    · exact hinj r (foldOrbit_space simpleFold sr tr hinj fuel _ h)
    · exact h

theorem foldOrbit_self (simpleFold : Nat → Nat) (sr tr fuel : Nat) :
    foldOrbit simpleFold sr tr (fuel + 1) sr = sr := by
  rw [foldOrbit, if_neg (fun h => h.1 rfl)]

/-- Runes that `EqualFold` takes for equal are both white space or both not, provided
white-space runes have no case variants in the table. -/
theorem runeEqualFold_space (simpleFold : Nat → Nat)
    (hfix : ∀ r, isSpace r = true → simpleFold r = r)
    (hinj : ∀ r, isSpace (simpleFold r) = true → isSpace r = true)
    (sr tr : Nat) (h : runeEqualFold simpleFold sr tr = true) :
    isSpace sr = isSpace tr := by
  unfold runeEqualFold at h
  by_cases he : tr = sr
  · rw [he]
  · rw [if_neg he] at h
    simp only at h
    have key : ∀ lo hi : Nat, lo ≠ hi →
        (if hi < 0x80 then decide (0x41 ≤ lo ∧ lo ≤ 0x5A ∧ hi = lo + 0x61 - 0x41)
          else decide (foldOrbit simpleFold lo hi (MaxRune + 1) (simpleFold lo) = hi)) = true →
        isSpace lo = false ∧ isSpace hi = false := by
      intro lo hi hne hc
      split_ifs at hc with hascii
      · simp only [decide_eq_true_eq] at hc
        constructor
        · rw [← Bool.not_eq_true, isSpace_iff]; omega
        · rw [← Bool.not_eq_true, isSpace_iff]; omega
      · simp only [decide_eq_true_eq] at hc
        have hlo : isSpace lo = false := by
          rw [← Bool.not_eq_true]
          intro hs
          have hf := hfix lo hs
          rw [hf] at hc
          rw [foldOrbit_self] at hc
          exact hne hc
        refine ⟨hlo, ?_⟩
        rw [← Bool.not_eq_true]
        intro hs
        rw [← hc] at hs
        have := hinj lo (foldOrbit_space simpleFold lo hi hinj _ _ hs)
        rw [hlo] at this
        exact absurd this (by simp)
    by_cases hlt : tr < sr
    · simp only [hlt, if_true] at h
      have := key tr sr he h
      rw [this.1, this.2]
    · simp only [hlt, if_false] at h
      have := key sr tr (fun e => he e.symm) h
      rw [this.1, this.2]

theorem equalFoldRunes_space (simpleFold : Nat → Nat)
    (hfix : ∀ r, isSpace r = true → simpleFold r = r)
    (hinj : ∀ r, isSpace (simpleFold r) = true → isSpace r = true) :
    ∀ s t : List Nat, equalFoldRunes simpleFold s t = true →
      (∃ r ∈ t, isSpace r = true) → ∃ r ∈ s, isSpace r = true
  | [], [], _, h => h
  | [], _ :: _, h, _ => by simp [equalFoldRunes] at h
  | _ :: _, [], h, _ => by simp [equalFoldRunes] at h
  | sr :: s, tr :: t, h, ⟨r, hr, hsp⟩ => by
    simp only [equalFoldRunes, Bool.and_eq_true] at h
    rcases List.mem_cons.1 hr with e | hr
    · subst e
      exact ⟨sr, List.mem_cons_self _ _,
        by rw [runeEqualFold_space simpleFold hfix hinj sr r h.1]; exact hsp⟩
    · obtain ⟨r', hr', hsp'⟩ := equalFoldRunes_space simpleFold hfix hinj s t h.2 ⟨r, hr, hsp⟩
      exact ⟨r', List.mem_cons_of_mem _ hr', hsp'⟩

/-- No word of a quote is equal under case folding to a query that contains white space. -/
theorem EqualFold_field_false (simpleFold : Nat → Nat)
    (hfix : ∀ r, isSpace r = true → simpleFold r = r)
    (hinj : ∀ r, isSpace (simpleFold r) = true → isSpace r = true)
    (quote query word : Bytes) (hq : containsSpace query) (hw : word ∈ Fields quote) :
    EqualFold simpleFold word query = false := by
  rw [← Bool.not_eq_true]
  intro h
  obtain ⟨r, hr, hsp⟩ := equalFoldRunes_space simpleFold hfix hinj _ _ h hq
  rw [Fields_noSpace quote word hw r hr] at hsp
  exact absurd hsp (by simp)

theorem simpleFoldAscii_fix (r : Nat) (h : isSpace r = true) : simpleFoldAscii r = r := by
  rw [isSpace_iff] at h
  unfold simpleFoldAscii
  split_ifs <;> omega

theorem simpleFoldAscii_inj (r : Nat) (h : isSpace (simpleFoldAscii r) = true) :
    isSpace r = true := by
  rw [isSpace_iff] at h ⊢
  unfold simpleFoldAscii at h
  split_ifs at h <;> omega

/-- C8: for a query that contains at least one white-space character, Search on a
quotes-only Searcher returns the empty result sequence, whatever the records are: no
whitespace-delimited word of a Quote is case-insensitively equal to the whole query
(white-space characters have no case variants in the table of `unicode.SimpleFold`). -/
theorem Search_query_with_space_empty (simpleFold : Nat → Nat) (plays : GoSlice Play)
    (query : Bytes)
    (hfix : ∀ r, isSpace r = true → simpleFold r = r)
    (hinj : ∀ r, isSpace (simpleFold r) = true → isSpace r = true)
    (hq : containsSpace query) :
    Searcher.Search simpleFold (Searcher.withPlays plays) query = .ok (some []) := by
  cases plays with
  | none => rfl
  | some plays =>
    rw [Search_withPlays]
    have h0 : ∀ play : Play, matchCount simpleFold play.Quote query = 0 := by
      intro play
      simp only [matchCount, List.countP_eq_zero]
      intro word hw
      rw [EqualFold_field_false simpleFold hfix hinj play.Quote query word hq hw]
      simp
    simp [h0]

/-- Witness for C8: the two-word query "to be" against a line of Hamlet. -/
theorem Search_query_with_space_empty_witness :
    containsSpace (asciiBytes "to be") ∧
      Searcher.Search simpleFoldAscii (Searcher.withPlays (some [playToBe]))
        (asciiBytes "to be") = .ok (some []) :=
  ⟨⟨0x20, by decide, by decide⟩,
    Search_query_with_space_empty simpleFoldAscii (some [playToBe]) (asciiBytes "to be")
      simpleFoldAscii_fix simpleFoldAscii_inj ⟨0x20, by decide, by decide⟩⟩

/-! ## What the lookup puts first, and the fuel of the fold loop -/

/-- The offset the lookup puts first is the one whose suffix is lexicographically least
among the suffixes that begin with the query. -/
theorem Lookup_new_head_least (data s : Bytes) (i0 : Nat) (rest : List Nat)
    (h : (suffixarrayNew data).Lookup s (-1) = some (i0 :: rest)) (k : Nat)
    (hk : s <+: data.drop k) : bytesCompare (data.drop i0) (data.drop k) ≠ .gt := by
  have hs := (Lookup_new_some data s i0 rest h).1
  rw [Index.Lookup_all] at h
  by_cases hc : s = [] ∨ (suffixarrayNew data).lookupAll s = []
  · simp [hc] at h
  · rw [if_neg hc] at h
    have hl := Option.some.inj h
    have hmem : k ∈ (suffixarrayNew data).lookupAll s :=
      (mem_lookupAll_new data s k).2 ⟨prefix_drop_lt data s k hs hk, hk⟩
    have hsorted : ((suffixarrayNew data).lookupAll s).Sorted (suffixLE data) := by
      rw [lookupAll_new]
      exact (suffixarrayNew_sorted data).filter _
    rw [hl] at hmem hsorted
    rcases List.mem_cons.1 hmem with e | e
    · rw [e, bytesCompare_self]; simp
    · exact List.rel_of_sorted_cons hsorted k e

/-- Once the loop of `EqualFold` has stopped, more fuel does not change its result. -/
theorem foldOrbit_fuel (simpleFold : Nat → Nat) (sr tr : Nat) :
    ∀ (fuel k r : Nat),
      ¬ (foldOrbit simpleFold sr tr fuel r ≠ sr ∧ foldOrbit simpleFold sr tr fuel r < tr) →
      foldOrbit simpleFold sr tr (fuel + k) r = foldOrbit simpleFold sr tr fuel r
  | 0, 0, _, _ => rfl
  | 0, k + 1, r, h => by
    simp only [foldOrbit] at h
    rw [Nat.zero_add]
    simp only [foldOrbit]
    rw [if_neg h]
  | fuel + 1, k, r, h => by
    have e : fuel + 1 + k = (fuel + k) + 1 := by omega
    rw [e]
    simp only [foldOrbit] at h ⊢
    split_ifs at h ⊢ with hc
    · exact foldOrbit_fuel simpleFold sr tr fuel k _ h
    · rfl

end ShakeSearch
